import Mathlib

/-!
# Verification of the Lambert solver (universal-variable formulation)

Shallow embedding of `src/lamberts_solver.cpp` over the real numbers:
IEEE doubles are modelled as `ℝ`, `std::sqrt`/`std::cos`/... as their
Mathlib counterparts, and Lean's total-division convention (`x / 0 = 0`)
stands in for the partiality of floating-point division.  `std::atan2` is
modelled through `Complex.arg`, which has the same convention
(range `(-π, π]`, `atan2 0 1 = 0`, `atan2 1 0 = π/2`).

The C++ source declares `const double PI = 3.14159265358979323846`, the
20-digit decimal rounding of π; the embedding takes the real value `π`.

The unbounded inner repair loop (`while (y < 0)`) is modelled by the
first bisection midpoint at which `y` becomes nonnegative, with `none`
when no such midpoint exists (i.e. when the C++ loop would never exit);
the outer loop threads the last-assigned `y` and `F` values exactly as
the C++ local variables do, and `solve` maps each exit of the C++
function to one constructor of `Outcome`.
-/

namespace Lambert

/-- Three-component vector, as `struct Vector3 { double x, y, z; }`. -/
structure Vector3 where
  x : ℝ
  y : ℝ
  z : ℝ

/-- Embedding of `LambertSolver::dot`. -/
def dot (a b : Vector3) : ℝ :=
  a.x * b.x + a.y * b.y + a.z * b.z

/-- Embedding of `LambertSolver::cross`. -/
def cross (a b : Vector3) : Vector3 :=
  ⟨a.y * b.z - a.z * b.y, a.z * b.x - a.x * b.z, a.x * b.y - a.y * b.x⟩

/-- Embedding of `LambertSolver::norm`: Euclidean length. -/
noncomputable def norm (v : Vector3) : ℝ :=
  Real.sqrt (v.x * v.x + v.y * v.y + v.z * v.z)

/-- The source's `const double PI`, embedded as the real number π. -/
noncomputable def PI : ℝ := Real.pi

/-- Embedding of `LambertSolver::stumpff_C`. -/
noncomputable def stumpff_C (z : ℝ) : ℝ :=
  if |z| < 1e-6 then
    1 / 2 - z / 24 + z * z / 720 - z * z * z / 40320
  else if z > 0 then
    (1 - Real.cos (Real.sqrt z)) / z
  else
    (Real.cosh (Real.sqrt (-z)) - 1) / (-z)

/-- Embedding of `LambertSolver::stumpff_S`. -/
noncomputable def stumpff_S (z : ℝ) : ℝ :=
  if |z| < 1e-6 then
    1 / 6 - z / 120 + z * z / 5040 - z * z * z / 362880
  else if z > 0 then
    (Real.sqrt z - Real.sin (Real.sqrt z)) / z ^ (1.5 : ℝ)
  else
    (Real.sinh (Real.sqrt (-z)) - Real.sqrt (-z)) / (-z) ^ (1.5 : ℝ)

/-- Embedding of `std::atan2 y x`, via the complex argument of `x + y·i`. -/
noncomputable def atan2 (y x : ℝ) : ℝ :=
  Complex.arg ⟨x, y⟩

/-- Clamped cosine `cos_dtheta`, after `std::max(-1.0, std::min(1.0, ·))`. -/
noncomputable def cos_dtheta (r1 r2 : Vector3) : ℝ :=
  max (-1) (min 1 (dot r1 r2 / (norm r1 * norm r2)))

/-- Sine `sin_dtheta` after the direction-of-motion sign adjustment. -/
noncomputable def sin_dtheta (r1 r2 : Vector3) (is_prograde : Bool) : ℝ :=
  let s := norm (cross r1 r2) / (norm r1 * norm r2)
  if is_prograde then
    if (cross r1 r2).z < 0 then -s else s
  else
    if (cross r1 r2).z ≥ 0 then -s else s

/-- Transfer angle `dtheta = atan2(sin_dtheta, cos_dtheta)`, plus `2π` if negative. -/
noncomputable def dtheta (r1 r2 : Vector3) (is_prograde : Bool) : ℝ :=
  let d := atan2 (sin_dtheta r1 r2 is_prograde) (cos_dtheta r1 r2)
  if d < 0 then d + 2 * PI else d

/-- The transfer parameter `A`. -/
noncomputable def A_param (r1 r2 : Vector3) (is_prograde : Bool) : ℝ :=
  sin_dtheta r1 r2 is_prograde *
    Real.sqrt (norm r1 * norm r2 / (1 - cos_dtheta r1 r2))

/-- Initial guess `z = (dtheta > PI) ? -4·PI·PI : 4·PI·PI`. -/
noncomputable def z_init (r1 r2 : Vector3) (is_prograde : Bool) : ℝ :=
  if dtheta r1 r2 is_prograde > PI then -(4 * PI * PI) else 4 * PI * PI

/-- Universal-variable `y = r1_norm + r2_norm + A * (z * S - 1) / sqrt(C)`. -/
noncomputable def y_of (r1n r2n A z : ℝ) : ℝ :=
  r1n + r2n + A * (z * stumpff_S z - 1) / Real.sqrt (stumpff_C z)

/-- Residual `F = y * S + A * sqrt(y) - sqrt(mu) * tof`. -/
noncomputable def F_of (r1n r2n A mu tof z : ℝ) : ℝ :=
  y_of r1n r2n A z * stumpff_S z +
    A * Real.sqrt (y_of r1n r2n A z) - Real.sqrt mu * tof

/-- Derivative `dFdz = (y * C + A * S * sqrt(y)) / (2.0 * C)`. -/
noncomputable def dFdz_of (r1n r2n A z : ℝ) : ℝ :=
  (y_of r1n r2n A z * stumpff_C z +
    A * stumpff_S z * Real.sqrt (y_of r1n r2n A z)) / (2 * stumpff_C z)

/-- The damped Newton step `0.5 * F / dFdz`, clamped to magnitude 10. -/
noncomputable def delta_z (r1n r2n A mu tof z : ℝ) : ℝ :=
  let d := 0.5 * F_of r1n r2n A mu tof z / dFdz_of r1n r2n A z
  if |d| > 10 then (if d > 0 then 10 else -10) else d

/-- One bracket update of the inner repair loop: take the midpoint `m`,
then `if (z < 0) z_low = z; else z_high = z;` with `z = m`. -/
noncomputable def bisect_step : ℝ × ℝ → ℝ × ℝ := fun s =>
  let m := (s.1 + s.2) / 2
  if m < 0 then (m, s.2) else (s.1, m)

/-- The bracket after `k` updates, starting from
`z_low = z0, z_high = (z0 < 0) ? 0 : z0 * 2`. -/
noncomputable def bisect_state (z0 : ℝ) (k : ℕ) : ℝ × ℝ :=
  bisect_step^[k] (z0, if z0 < 0 then 0 else z0 * 2)

/-- The midpoint tried on the `k`-th pass of the inner repair loop. -/
noncomputable def bisect_mid (z0 : ℝ) (k : ℕ) : ℝ :=
  ((bisect_state z0 k).1 + (bisect_state z0 k).2) / 2

open Classical in
/-- Exit value of the inner `while (y < 0)` repair loop: the first
midpoint with `y ≥ 0`, or `none` when the C++ loop never exits. -/
noncomputable def bisect_exit (r1n r2n A z0 : ℝ) : Option ℝ :=
  if h : ∃ k, ¬ y_of r1n r2n A (bisect_mid z0 k) < 0 then
    some (bisect_mid z0 (Nat.find h))
  else
    none

/-- Result of the outer iteration (`while (iteration < max_iterations)`). -/
inductive LoopOut where
  | converged (z y : ℝ)
  | noConv (z y F : ℝ)
  | blowup
  | hang

/-- The outer iteration.  The `ℕ` argument is the remaining iteration
budget (`max_iterations - iteration`); `ylast`/`Flast` thread the
last-assigned values of the C++ locals `y` and `F`, which the
non-convergence exit reports. -/
noncomputable def loop (r1n r2n A mu tof : ℝ) : ℕ → ℝ → ℝ → ℝ → LoopOut
  | 0, z, ylast, Flast => .noConv z ylast Flast
  | n + 1, z, _ylast, Flast =>
    let y := y_of r1n r2n A z
    if y < 0 then
      match bisect_exit r1n r2n A z with
      | none => .hang
      | some z2 => loop r1n r2n A mu tof n z2 (y_of r1n r2n A z2) Flast
    else
      let F := F_of r1n r2n A mu tof z
      if |F| < 1e-8 then .converged z y
      else
        let z2 := z - delta_z r1n r2n A mu tof z
        if |z2| > 1e6 then .blowup
        else loop r1n r2n A mu tof n (max (-(4 * PI * PI)) (min z2 (4 * PI * PI))) y F

/-- Spec-side convergence predicate, following the spec's words:
"success when |F(z)| < 1e-8 within the iteration budget".  It mirrors
the state evolution of `loop` but merely asks whether some pass within
the budget reaches the residual tolerance. -/
noncomputable def convergedWithin (r1n r2n A mu tof : ℝ) : ℕ → ℝ → Prop
  | 0, _ => False
  | n + 1, z =>
    if y_of r1n r2n A z < 0 then
      match bisect_exit r1n r2n A z with
      | none => False
      | some z2 => convergedWithin r1n r2n A mu tof n z2
    else if |F_of r1n r2n A mu tof z| < 1e-8 then True
    else if |z - delta_z r1n r2n A mu tof z| > 1e6 then False
    else
      convergedWithin r1n r2n A mu tof n
        (max (-(4 * PI * PI)) (min (z - delta_z r1n r2n A mu tof z) (4 * PI * PI)))

/-- The distinguishable exits of `LambertSolver::solve`:
the returned velocity pair, the four thrown errors, and `innerHang`
marking the one way the C++ function can fail to return at all
(the inner repair loop never exiting). -/
inductive Outcome where
  | ok (v1 v2 : Vector3)
  | invalidInput
  | degenerateGeometry
  | numericalDivergence
  | nonConvergence (z y F : ℝ) (r1 r2 : Vector3) (tof : ℝ) (is_prograde : Bool)
  | innerHang

/-- Embedding of `LambertSolver::solve`, for a solver constructed with parameter `mu`. -/
noncomputable def solve (mu : ℝ) (r1 r2 : Vector3) (tof : ℝ) (is_prograde : Bool) : Outcome :=
  if norm r1 = 0 ∨ norm r2 = 0 then .invalidInput
  else if A_param r1 r2 is_prograde = 0 then .degenerateGeometry
  else
    match loop (norm r1) (norm r2) (A_param r1 r2 is_prograde) mu tof
        1000 (z_init r1 r2 is_prograde) 0 0 with
    | .converged _z y =>
      let f := 1 - y / norm r1
      let g := A_param r1 r2 is_prograde * Real.sqrt (y / mu)
      let g_dot := 1 - y / norm r2
      .ok ⟨(r2.x - f * r1.x) / g, (r2.y - f * r1.y) / g, (r2.z - f * r1.z) / g⟩
        ⟨(g_dot * r2.x - r1.x) / g, (g_dot * r2.y - r1.y) / g, (g_dot * r2.z - r1.z) / g⟩
    | .noConv z y F => .nonConvergence z y F r1 r2 tof is_prograde
    | .blowup => .numericalDivergence
    | .hang => .innerHang

/-- Concrete transfer parameter used to exhibit a repair pass of the
iteration: a rational slightly below `√2`. -/
noncomputable def cex_A : ℝ := 141421355 / 100000000

/-- Concrete `z` at which `y < 0` triggers the repair loop. -/
noncomputable def cex_z0 : ℝ := -(1 / 10000000)

/-- Time of flight making the residual vanish exactly at the repaired
estimate `cex_z0 / 2` (with `mu = 1`). -/
noncomputable def cex_tof : ℝ :=
  y_of 1 1 cex_A (cex_z0 / 2) * stumpff_S (cex_z0 / 2) +
    cex_A * Real.sqrt (y_of 1 1 cex_A (cex_z0 / 2))

/-- Time of flight for which the concrete transfer
`r1 = (1,0,0), r2 = (0,1,0), mu = 1` converges on the first iteration. -/
noncomputable def wit_tof : ℝ := 1 / (2 * Real.pi ^ 2) + Real.sqrt 2

/-- Unfolding `loop` at an exhausted budget. -/
theorem loop_zero (r1n r2n A mu tof z ylast Flast : ℝ) :
    loop r1n r2n A mu tof 0 z ylast Flast = .noConv z ylast Flast := rfl

/-- Unfolding one pass of `loop`. -/
theorem loop_succ (r1n r2n A mu tof : ℝ) (n : ℕ) (z ylast Flast : ℝ) :
    loop r1n r2n A mu tof (n + 1) z ylast Flast =
      (if y_of r1n r2n A z < 0 then
        match bisect_exit r1n r2n A z with
        | none => .hang
        | some z2 => loop r1n r2n A mu tof n z2 (y_of r1n r2n A z2) Flast
      else if |F_of r1n r2n A mu tof z| < 1e-8 then
        .converged z (y_of r1n r2n A z)
      else if |z - delta_z r1n r2n A mu tof z| > 1e6 then .blowup
      else
        loop r1n r2n A mu tof n
          (max (-(4 * PI * PI)) (min (z - delta_z r1n r2n A mu tof z) (4 * PI * PI)))
          (y_of r1n r2n A z) (F_of r1n r2n A mu tof z)) := rfl

/-- Unfolding `convergedWithin` at an exhausted budget. -/
theorem convergedWithin_zero (r1n r2n A mu tof z : ℝ) :
    convergedWithin r1n r2n A mu tof 0 z = False := rfl

/-- Unfolding one pass of `convergedWithin`. -/
theorem convergedWithin_succ (r1n r2n A mu tof : ℝ) (n : ℕ) (z : ℝ) :
    convergedWithin r1n r2n A mu tof (n + 1) z =
      (if y_of r1n r2n A z < 0 then
        match bisect_exit r1n r2n A z with
        | none => False
        | some z2 => convergedWithin r1n r2n A mu tof n z2
      else if |F_of r1n r2n A mu tof z| < 1e-8 then True
      else if |z - delta_z r1n r2n A mu tof z| > 1e6 then False
      else
        convergedWithin r1n r2n A mu tof n
          (max (-(4 * PI * PI)) (min (z - delta_z r1n r2n A mu tof z) (4 * PI * PI)))) := rfl

/-- C3: the Stumpff evaluator uses the 4-term Maclaurin series for
`|z| < 1e-6`, the elliptic closed forms for `z > 1e-6`, and the
hyperbolic closed forms for `z < -1e-6`; it is total over all real `z`. -/
theorem stumpff_branches (z : ℝ) :
    (|z| < 1e-6 →
      stumpff_C z = 1 / 2 - z / 24 + z ^ 2 / 720 - z ^ 3 / 40320 ∧
      stumpff_S z = 1 / 6 - z / 120 + z ^ 2 / 5040 - z ^ 3 / 362880) ∧
    (z > 1e-6 →
      stumpff_C z = (1 - Real.cos (Real.sqrt z)) / z ∧
      stumpff_S z = (Real.sqrt z - Real.sin (Real.sqrt z)) / z ^ (1.5 : ℝ)) ∧
    (z < -(1e-6) →
      stumpff_C z = (Real.cosh (Real.sqrt (-z)) - 1) / (-z) ∧
      stumpff_S z = (Real.sinh (Real.sqrt (-z)) - Real.sqrt (-z)) / (-z) ^ (1.5 : ℝ)) := by
  refine ⟨fun h => ?_, fun h => ?_, fun h => ?_⟩
  · constructor
    · simp only [stumpff_C, if_pos h]; ring
    · simp only [stumpff_S, if_pos h]; ring
  · have h0 : (0 : ℝ) < z := lt_trans (by norm_num) h
    have h1 : ¬ |z| < 1e-6 := by rw [abs_of_pos h0]; linarith
    exact ⟨by simp only [stumpff_C, if_neg h1, if_pos h0],
      by simp only [stumpff_S, if_neg h1, if_pos h0]⟩
  · have hneg : z < 0 := by linarith [h]
    have h0 : ¬ (0 : ℝ) < z := by linarith
    have h1 : ¬ |z| < 1e-6 := by rw [abs_of_neg hneg]; linarith
    exact ⟨by simp only [stumpff_C, if_neg h1, if_neg h0],
      by simp only [stumpff_S, if_neg h1, if_neg h0]⟩

/-- Witness for C3: the three branches evaluated at `z = 0, 1, -1`. -/
theorem stumpff_branches_witness :
    (stumpff_C 0 = 1 / 2 - (0 : ℝ) / 24 + (0 : ℝ) ^ 2 / 720 - (0 : ℝ) ^ 3 / 40320 ∧
      stumpff_S 0 = 1 / 6 - (0 : ℝ) / 120 + (0 : ℝ) ^ 2 / 5040 - (0 : ℝ) ^ 3 / 362880) ∧
    (stumpff_C 1 = (1 - Real.cos (Real.sqrt 1)) / 1 ∧
      stumpff_S 1 = (Real.sqrt 1 - Real.sin (Real.sqrt 1)) / (1 : ℝ) ^ (1.5 : ℝ)) ∧
    (stumpff_C (-1) = (Real.cosh (Real.sqrt (-(-1 : ℝ))) - 1) / (-(-1 : ℝ)) ∧
      stumpff_S (-1) =
        (Real.sinh (Real.sqrt (-(-1 : ℝ))) - Real.sqrt (-(-1 : ℝ))) / (-(-1 : ℝ)) ^ (1.5 : ℝ)) :=
  ⟨(stumpff_branches 0).1 (by norm_num),
    (stumpff_branches 1).2.1 (by norm_num),
    (stumpff_branches (-1)).2.2 (by norm_num)⟩

/-- The squared norm recovers the component sum. -/
theorem norm_mul_self (v : Vector3) :
    norm v * norm v = v.x * v.x + v.y * v.y + v.z * v.z :=
  Real.mul_self_sqrt
    (add_nonneg (add_nonneg (mul_self_nonneg _) (mul_self_nonneg _)) (mul_self_nonneg _))

/-- Norms are nonnegative. -/
theorem norm_nonneg' (v : Vector3) : 0 ≤ norm v := Real.sqrt_nonneg _

/-- The cross product of a vector with itself vanishes. -/
theorem cross_self (r : Vector3) : cross r r = ⟨0, 0, 0⟩ := by
  simp only [cross, Vector3.mk.injEq]
  refine ⟨by ring, by ring, by ring⟩

/-- The zero vector has zero norm. -/
theorem norm_zero_vec : norm ⟨0, 0, 0⟩ = 0 := by
  simp [norm]

/-- Norm of the first concrete basis-like test vector. -/
theorem norm_e1 : norm ⟨1, 0, 0⟩ = 1 := by
  rw [norm]; norm_num

/-- Norm of the second concrete test vector. -/
theorem norm_e2 : norm ⟨0, 1, 0⟩ = 1 := by
  rw [norm]; norm_num

/-- Norm of the concrete cross product `(0,0,1)`. -/
theorem norm_e3 : norm ⟨0, 0, 1⟩ = 1 := by
  rw [norm]; norm_num

/-- C2: the geometry step uses `|r1×r2|/(|r1||r2|)` as the sine
magnitude, negating it exactly when (prograde ∧ cross.z < 0) or
(retrograde ∧ cross.z ≥ 0); `Δθ` is `atan2(sin, cos)` plus `2π` when
negative, and always lies in `[0, 2π)`. -/
theorem geometry_sin_sign_dtheta_range (r1 r2 : Vector3) (p : Bool)
    (_h1 : norm r1 ≠ 0) (_h2 : norm r2 ≠ 0) :
    sin_dtheta r1 r2 p =
      (if (p = true ∧ (cross r1 r2).z < 0) ∨ (p = false ∧ 0 ≤ (cross r1 r2).z) then
        -(norm (cross r1 r2) / (norm r1 * norm r2))
      else norm (cross r1 r2) / (norm r1 * norm r2)) ∧
    dtheta r1 r2 p =
      (if atan2 (sin_dtheta r1 r2 p) (cos_dtheta r1 r2) < 0 then
        atan2 (sin_dtheta r1 r2 p) (cos_dtheta r1 r2) + 2 * Real.pi
      else atan2 (sin_dtheta r1 r2 p) (cos_dtheta r1 r2)) ∧
    dtheta r1 r2 p ∈ Set.Ico 0 (2 * Real.pi) := by
  refine ⟨?_, ?_, ?_⟩
  · cases p with
    | false =>
      by_cases hz : (0 : ℝ) ≤ (cross r1 r2).z
      · simp [sin_dtheta, ge_iff_le, hz]
      · simp [sin_dtheta, ge_iff_le, hz]
    | true =>
      by_cases hz : (0 : ℝ) ≤ (cross r1 r2).z
      · simp [sin_dtheta, not_lt.mpr hz, hz]
      · simp [sin_dtheta, lt_of_not_le hz, hz]
  · simp only [dtheta, PI]
  · have hd1 : -Real.pi < atan2 (sin_dtheta r1 r2 p) (cos_dtheta r1 r2) :=
      Complex.neg_pi_lt_arg _
    have hd2 : atan2 (sin_dtheta r1 r2 p) (cos_dtheta r1 r2) ≤ Real.pi :=
      Complex.arg_le_pi _
    have hpi := Real.pi_pos
    rw [dtheta]
    simp only [PI]
    split_ifs with hneg
    · exact ⟨by linarith, by linarith⟩
    · push_neg at hneg
      exact ⟨hneg, by linarith⟩

/-- Witness for C2 at the concrete pair `(1,0,0)`, `(0,1,0)`, prograde. -/
theorem geometry_sin_sign_dtheta_range_witness :
    sin_dtheta ⟨1, 0, 0⟩ ⟨0, 1, 0⟩ true =
      (if ((true : Bool) = true ∧ (cross ⟨1, 0, 0⟩ ⟨0, 1, 0⟩).z < 0) ∨
          ((true : Bool) = false ∧ 0 ≤ (cross ⟨1, 0, 0⟩ ⟨0, 1, 0⟩).z) then
        -(norm (cross ⟨1, 0, 0⟩ ⟨0, 1, 0⟩) / (norm ⟨1, 0, 0⟩ * norm ⟨0, 1, 0⟩))
      else norm (cross ⟨1, 0, 0⟩ ⟨0, 1, 0⟩) / (norm ⟨1, 0, 0⟩ * norm ⟨0, 1, 0⟩)) ∧
    dtheta ⟨1, 0, 0⟩ ⟨0, 1, 0⟩ true =
      (if atan2 (sin_dtheta ⟨1, 0, 0⟩ ⟨0, 1, 0⟩ true) (cos_dtheta ⟨1, 0, 0⟩ ⟨0, 1, 0⟩) < 0 then
        atan2 (sin_dtheta ⟨1, 0, 0⟩ ⟨0, 1, 0⟩ true) (cos_dtheta ⟨1, 0, 0⟩ ⟨0, 1, 0⟩) + 2 * Real.pi
      else atan2 (sin_dtheta ⟨1, 0, 0⟩ ⟨0, 1, 0⟩ true) (cos_dtheta ⟨1, 0, 0⟩ ⟨0, 1, 0⟩)) ∧
    dtheta ⟨1, 0, 0⟩ ⟨0, 1, 0⟩ true ∈ Set.Ico 0 (2 * Real.pi) :=
  geometry_sin_sign_dtheta_range ⟨1, 0, 0⟩ ⟨0, 1, 0⟩ true
    (by rw [norm_e1]; norm_num) (by rw [norm_e2]; norm_num)

/-- C4: for `r1 = r2 = r` with nonzero norm, the transfer angle
resolves to `0`, the parameter `A` evaluates to exactly `0`, and `solve`
exits with the degenerate-geometry error before iterating. -/
theorem same_vector_degenerate (mu : ℝ) (r : Vector3) (tof : ℝ) (p : Bool)
    (h : norm r ≠ 0) :
    dtheta r r p = 0 ∧ A_param r r p = 0 ∧
      solve mu r r tof p = Outcome.degenerateGeometry := by
  have hq : norm r * norm r = r.x * r.x + r.y * r.y + r.z * r.z := norm_mul_self r
  have hqne : norm r * norm r ≠ 0 := mul_ne_zero h h
  have hcr : cross r r = ⟨0, 0, 0⟩ := cross_self r
  have hsin : sin_dtheta r r p = 0 := by
    simp only [sin_dtheta, hcr, norm_zero_vec, zero_div]
    cases p <;> simp
  have hcos : cos_dtheta r r = 1 := by
    simp only [cos_dtheta, dot]
    rw [← hq, div_self hqne]
    norm_num
  have hdt : dtheta r r p = 0 := by
    simp only [dtheta, hsin, hcos, atan2]
    have h1 : (⟨1, 0⟩ : ℂ) = 1 := by
      refine Complex.ext ?_ ?_ <;> simp
    rw [h1, Complex.arg_one]
    norm_num
  have hA : A_param r r p = 0 := by
    simp [A_param, hsin]
  refine ⟨hdt, hA, ?_⟩
  rw [solve, if_neg (by push_neg; exact ⟨h, h⟩), if_pos hA]

/-- Witness for C4 at `r = (1,0,0)`. -/
theorem same_vector_degenerate_witness :
    dtheta ⟨1, 0, 0⟩ ⟨1, 0, 0⟩ true = 0 ∧ A_param ⟨1, 0, 0⟩ ⟨1, 0, 0⟩ true = 0 ∧
      solve 1 ⟨1, 0, 0⟩ ⟨1, 0, 0⟩ 1 true = Outcome.degenerateGeometry :=
  same_vector_degenerate 1 ⟨1, 0, 0⟩ 1 true (by rw [norm_e1]; norm_num)

/-- C7: `solve` reports `invalidInput` exactly when one of the two
position vectors has zero Euclidean norm; the check precedes all other
computation of the algorithm. -/
theorem invalidInput_iff_zero_norm (mu : ℝ) (r1 r2 : Vector3) (tof : ℝ) (p : Bool) :
    solve mu r1 r2 tof p = Outcome.invalidInput ↔ (norm r1 = 0 ∨ norm r2 = 0) := by
  constructor
  · intro h
    by_contra hn
    rw [solve, if_neg hn] at h
    by_cases hA : A_param r1 r2 p = 0
    · rw [if_pos hA] at h
      exact absurd h (by simp)
    · rw [if_neg hA] at h
      cases hl : loop (norm r1) (norm r2) (A_param r1 r2 p) mu tof 1000 (z_init r1 r2 p) 0 0 <;>
        rw [hl] at h <;> simp at h
  · intro h
    rw [solve, if_pos h]

/-- The cross product of the two concrete test vectors. -/
theorem wit_cross : cross ⟨1, 0, 0⟩ ⟨0, 1, 0⟩ = ⟨0, 0, 1⟩ := by
  simp only [cross, Vector3.mk.injEq]
  norm_num

/-- Clamped cosine of the concrete transfer: `0`. -/
theorem wit_cos : cos_dtheta ⟨1, 0, 0⟩ ⟨0, 1, 0⟩ = 0 := by
  simp only [cos_dtheta, dot, norm_e1, norm_e2]
  norm_num

/-- Sine of the concrete transfer: `1`. -/
theorem wit_sin : sin_dtheta ⟨1, 0, 0⟩ ⟨0, 1, 0⟩ true = 1 := by
  simp only [sin_dtheta, wit_cross, norm_e1, norm_e2, norm_e3]
  norm_num

/-- Transfer parameter of the concrete transfer: `1`. -/
theorem wit_A : A_param ⟨1, 0, 0⟩ ⟨0, 1, 0⟩ true = 1 := by
  rw [A_param, wit_sin, wit_cos, norm_e1, norm_e2]
  norm_num

/-- Transfer angle of the concrete transfer: `π/2`. -/
theorem wit_dtheta : dtheta ⟨1, 0, 0⟩ ⟨0, 1, 0⟩ true = Real.pi / 2 := by
  rw [dtheta]
  simp only [wit_sin, wit_cos, atan2]
  have hI : (⟨0, 1⟩ : ℂ) = Complex.I := by
    refine Complex.ext ?_ ?_ <;> simp
  rw [hI, Complex.arg_I, if_neg (not_lt.mpr (by positivity))]

/-- Initial iterate of the concrete transfer: `+4π²`. -/
theorem wit_zinit : z_init ⟨1, 0, 0⟩ ⟨0, 1, 0⟩ true = 4 * Real.pi * Real.pi := by
  rw [z_init, wit_dtheta]
  simp only [PI]
  rw [if_neg (by push_neg; linarith [Real.pi_pos])]

/-- Square-root computation `√(4π²) = 2π`. -/
theorem sqrt_four_pi_sq : Real.sqrt (4 * Real.pi * Real.pi) = 2 * Real.pi := by
  rw [show 4 * Real.pi * Real.pi = (2 * Real.pi) ^ 2 by ring]
  exact Real.sqrt_sq (by positivity)

/-- Numeric bound: `4π²` is far above the series threshold. -/
theorem four_pi_sq_big : ¬ |4 * Real.pi * Real.pi| < 1e-6 := by
  have h := Real.pi_gt_three
  rw [abs_of_pos (by positivity)]
  push_neg
  nlinarith

/-- Power identity `(x²)^1.5 = x³` for nonnegative `x`. -/
theorem rpow_threehalves_of_sq (x : ℝ) (hx : 0 ≤ x) : (x ^ 2) ^ (1.5 : ℝ) = x ^ 3 := by
  have h2 : (x : ℝ) ^ 2 = x ^ ((2 : ℕ) : ℝ) := (Real.rpow_natCast x 2).symm
  have h3 : (x : ℝ) ^ 3 = x ^ ((3 : ℕ) : ℝ) := (Real.rpow_natCast x 3).symm
  rw [h2, ← Real.rpow_mul hx, h3]
  norm_num

/-- Stumpff value `C(4π²) = 0` in the real model (cos 2π = 1 exactly). -/
theorem stumpff_C_four_pi_sq : stumpff_C (4 * Real.pi * Real.pi) = 0 := by
  rw [stumpff_C, if_neg four_pi_sq_big, if_pos (by positivity),
    sqrt_four_pi_sq, Real.cos_two_pi]
  simp

/-- Stumpff value `S(4π²) = 1/(4π²)`. -/
theorem stumpff_S_four_pi_sq : stumpff_S (4 * Real.pi * Real.pi) = 1 / (4 * Real.pi ^ 2) := by
  rw [stumpff_S, if_neg four_pi_sq_big, if_pos (by positivity),
    sqrt_four_pi_sq, Real.sin_two_pi,
    show 4 * Real.pi * Real.pi = (2 * Real.pi) ^ 2 by ring,
    rpow_threehalves_of_sq _ (by positivity)]
  have hpi := Real.pi_ne_zero
  field_simp
  ring

/-- Value `y(4π²) = 2` for the concrete transfer (division by `√C = 0`
yields `0` in the real model). -/
theorem wit_y : y_of 1 1 1 (4 * Real.pi * Real.pi) = 2 := by
  rw [y_of, stumpff_C_four_pi_sq, Real.sqrt_zero, div_zero]
  norm_num

/-- The residual vanishes at the first iterate for `wit_tof`. -/
theorem wit_F : F_of 1 1 1 1 wit_tof (4 * Real.pi * Real.pi) = 0 := by
  rw [F_of, wit_y, stumpff_S_four_pi_sq, wit_tof, Real.sqrt_one]
  have hpi := Real.pi_ne_zero
  field_simp
  ring

/-- The concrete run converges on its first pass. -/
theorem wit_loop :
    loop 1 1 1 1 wit_tof 1000 (4 * Real.pi * Real.pi) 0 0 =
      LoopOut.converged (4 * Real.pi * Real.pi) 2 := by
  rw [show (1000 : ℕ) = 999 + 1 from rfl, loop_succ, wit_y,
    if_neg (by norm_num), wit_F, if_pos (by norm_num)]

/-- C1: when the iteration converges with final `y` (and geometry
parameter `A`), `solve` returns exactly
`v1 = (r2 - f·r1)/g`, `v2 = (g_dot·r2 - r1)/g` componentwise, with
`f = 1 - y/|r1|`, `g = A·√(y/mu)`, `g_dot = 1 - y/|r2|`. -/
theorem velocity_reconstruction (mu : ℝ) (r1 r2 : Vector3) (tof : ℝ) (p : Bool) (z y : ℝ)
    (h1 : ¬ (norm r1 = 0 ∨ norm r2 = 0))
    (h2 : A_param r1 r2 p ≠ 0)
    (h3 : loop (norm r1) (norm r2) (A_param r1 r2 p) mu tof 1000 (z_init r1 r2 p) 0 0 =
      LoopOut.converged z y) :
    solve mu r1 r2 tof p =
      Outcome.ok
        ⟨(r2.x - (1 - y / norm r1) * r1.x) / (A_param r1 r2 p * Real.sqrt (y / mu)),
          (r2.y - (1 - y / norm r1) * r1.y) / (A_param r1 r2 p * Real.sqrt (y / mu)),
          (r2.z - (1 - y / norm r1) * r1.z) / (A_param r1 r2 p * Real.sqrt (y / mu))⟩
        ⟨((1 - y / norm r2) * r2.x - r1.x) / (A_param r1 r2 p * Real.sqrt (y / mu)),
          ((1 - y / norm r2) * r2.y - r1.y) / (A_param r1 r2 p * Real.sqrt (y / mu)),
          ((1 - y / norm r2) * r2.z - r1.z) / (A_param r1 r2 p * Real.sqrt (y / mu))⟩ := by
  rw [solve, if_neg h1, if_neg h2, h3]

/-- Witness for C1: the concrete quarter-turn transfer converging on the
first pass, with the claimed component formulas at `y = 2`. -/
theorem velocity_reconstruction_witness :
    solve 1 ⟨1, 0, 0⟩ ⟨0, 1, 0⟩ wit_tof true =
      Outcome.ok
        ⟨(0 - (1 - 2 / norm ⟨1, 0, 0⟩) * 1) /
            (A_param ⟨1, 0, 0⟩ ⟨0, 1, 0⟩ true * Real.sqrt (2 / 1)),
          (1 - (1 - 2 / norm ⟨1, 0, 0⟩) * 0) /
            (A_param ⟨1, 0, 0⟩ ⟨0, 1, 0⟩ true * Real.sqrt (2 / 1)),
          (0 - (1 - 2 / norm ⟨1, 0, 0⟩) * 0) /
            (A_param ⟨1, 0, 0⟩ ⟨0, 1, 0⟩ true * Real.sqrt (2 / 1))⟩
        ⟨((1 - 2 / norm ⟨0, 1, 0⟩) * 0 - 1) /
            (A_param ⟨1, 0, 0⟩ ⟨0, 1, 0⟩ true * Real.sqrt (2 / 1)),
          ((1 - 2 / norm ⟨0, 1, 0⟩) * 1 - 0) /
            (A_param ⟨1, 0, 0⟩ ⟨0, 1, 0⟩ true * Real.sqrt (2 / 1)),
          ((1 - 2 / norm ⟨0, 1, 0⟩) * 0 - 0) /
            (A_param ⟨1, 0, 0⟩ ⟨0, 1, 0⟩ true * Real.sqrt (2 / 1))⟩ :=
  velocity_reconstruction 1 ⟨1, 0, 0⟩ ⟨0, 1, 0⟩ wit_tof true (4 * Real.pi * Real.pi) 2
    (by rw [norm_e1, norm_e2]; norm_num)
    (by rw [wit_A]; norm_num)
    (by rw [norm_e1, norm_e2, wit_A, wit_zinit]; exact wit_loop)

/-- The outer loop converges iff the spec-side convergence predicate
holds, independently of the threaded `ylast`/`Flast` values. -/
theorem loop_converged_iff (r1n r2n A mu tof : ℝ) :
    ∀ (n : ℕ) (z ylast Flast : ℝ),
      (∃ zz yy, loop r1n r2n A mu tof n z ylast Flast = LoopOut.converged zz yy) ↔
        convergedWithin r1n r2n A mu tof n z := by
  intro n
  induction n with
  | zero =>
    intro z yl Fl
    rw [convergedWithin_zero]
    simp [loop_zero]
  | succ n ih =>
    intro z yl Fl
    rw [loop_succ, convergedWithin_succ]
    by_cases hy : y_of r1n r2n A z < 0
    · rw [if_pos hy, if_pos hy]
      cases hb : bisect_exit r1n r2n A z with
      | none => simp [hb]
      | some z2 => simpa [hb] using ih z2 (y_of r1n r2n A z2) Fl
    · rw [if_neg hy, if_neg hy]
      by_cases hF : |F_of r1n r2n A mu tof z| < 1e-8
      · rw [if_pos hF, if_pos hF]
        simp
      · rw [if_neg hF, if_neg hF]
        by_cases hz2 : |z - delta_z r1n r2n A mu tof z| > 1e6
        · rw [if_pos hz2, if_pos hz2]
          simp
        · rw [if_neg hz2, if_neg hz2]
          exact ih _ _ _

/-- C8: with the geometric guards passed, `solve` succeeds exactly
when some pass within the 1000-iteration budget reaches `|F| < 1e-8`,
and when the budget is exhausted it fails with the non-convergence
error carrying the final `z`, `y`, `F` and the original inputs. -/
theorem convergence_and_nonconvergence (mu : ℝ) (r1 r2 : Vector3) (tof : ℝ) (p : Bool)
    (h1 : norm r1 ≠ 0) (h2 : norm r2 ≠ 0) (hA : A_param r1 r2 p ≠ 0) :
    ((∃ v1 v2, solve mu r1 r2 tof p = Outcome.ok v1 v2) ↔
      convergedWithin (norm r1) (norm r2) (A_param r1 r2 p) mu tof 1000 (z_init r1 r2 p)) ∧
    (∀ z y F,
      loop (norm r1) (norm r2) (A_param r1 r2 p) mu tof 1000 (z_init r1 r2 p) 0 0 =
          LoopOut.noConv z y F →
        solve mu r1 r2 tof p = Outcome.nonConvergence z y F r1 r2 tof p) := by
  have hguard : ¬ (norm r1 = 0 ∨ norm r2 = 0) := by
    push_neg
    exact ⟨h1, h2⟩
  constructor
  · rw [← loop_converged_iff (norm r1) (norm r2) (A_param r1 r2 p) mu tof
      1000 (z_init r1 r2 p) 0 0]
    constructor
    · rintro ⟨v1, v2, h⟩
      rw [solve, if_neg hguard, if_neg hA] at h
      cases hl : loop (norm r1) (norm r2) (A_param r1 r2 p) mu tof
          1000 (z_init r1 r2 p) 0 0 with
      | converged zz yy => exact ⟨zz, yy, rfl⟩
      | noConv zz yy FF => rw [hl] at h; simp at h
      | blowup => rw [hl] at h; simp at h
      | hang => rw [hl] at h; simp at h
    · rintro ⟨zz, yy, h⟩
      exact ⟨_, _, by rw [solve, if_neg hguard, if_neg hA, h]⟩
  · intro z y F hl
    rw [solve, if_neg hguard, if_neg hA, hl]

/-- Witness for C8 at the concrete converging transfer. -/
theorem convergence_and_nonconvergence_witness :
    ((∃ v1 v2, solve 1 ⟨1, 0, 0⟩ ⟨0, 1, 0⟩ wit_tof true = Outcome.ok v1 v2) ↔
      convergedWithin (norm ⟨1, 0, 0⟩) (norm ⟨0, 1, 0⟩) (A_param ⟨1, 0, 0⟩ ⟨0, 1, 0⟩ true)
        1 wit_tof 1000 (z_init ⟨1, 0, 0⟩ ⟨0, 1, 0⟩ true)) ∧
    (∀ z y F,
      loop (norm ⟨1, 0, 0⟩) (norm ⟨0, 1, 0⟩) (A_param ⟨1, 0, 0⟩ ⟨0, 1, 0⟩ true)
          1 wit_tof 1000 (z_init ⟨1, 0, 0⟩ ⟨0, 1, 0⟩ true) 0 0 = LoopOut.noConv z y F →
        solve 1 ⟨1, 0, 0⟩ ⟨0, 1, 0⟩ wit_tof true =
          Outcome.nonConvergence z y F ⟨1, 0, 0⟩ ⟨0, 1, 0⟩ wit_tof true) :=
  convergence_and_nonconvergence 1 ⟨1, 0, 0⟩ ⟨0, 1, 0⟩ wit_tof true
    (by rw [norm_e1]; norm_num) (by rw [norm_e2]; norm_num) (by rw [wit_A]; norm_num)

/-- Positivity of `PI`. -/
theorem PI_pos : 0 < PI := Real.pi_pos

/-- Lagrange's identity for the cross product. -/
theorem cross_norm_sq (a b : Vector3) :
    norm (cross a b) * norm (cross a b) =
      (norm a * norm a) * (norm b * norm b) - dot a b ^ 2 := by
  rw [norm_mul_self, norm_mul_self, norm_mul_self]
  simp only [cross, dot]
  ring

/-- Cauchy–Schwarz for the 3-vector dot product, squared form. -/
theorem dot_sq_le (a b : Vector3) :
    dot a b ^ 2 ≤ (norm a * norm a) * (norm b * norm b) := by
  have h := cross_norm_sq a b
  nlinarith [mul_self_nonneg (norm (cross a b))]

/-- The clamped cosine always lies in `[-1, 1]`. -/
theorem cos_dtheta_mem (r1 r2 : Vector3) :
    -1 ≤ cos_dtheta r1 r2 ∧ cos_dtheta r1 r2 ≤ 1 :=
  ⟨le_max_left _ _, max_le (by norm_num) (min_le_left _ _)⟩

/-- With nonzero norms the clamp is the identity: the raw cosine is
already in `[-1, 1]` by Cauchy–Schwarz. -/
theorem cos_dtheta_eq (r1 r2 : Vector3) (h1 : norm r1 ≠ 0) (h2 : norm r2 ≠ 0) :
    cos_dtheta r1 r2 = dot r1 r2 / (norm r1 * norm r2) := by
  have hn1 : 0 < norm r1 := (norm_nonneg' r1).lt_of_ne (Ne.symm h1)
  have hn2 : 0 < norm r2 := (norm_nonneg' r2).lt_of_ne (Ne.symm h2)
  have hpos : 0 < norm r1 * norm r2 := mul_pos hn1 hn2
  have habs : |dot r1 r2| ≤ norm r1 * norm r2 := by
    have h := dot_sq_le r1 r2
    nlinarith [abs_nonneg (dot r1 r2), sq_abs (dot r1 r2),
      sq_nonneg (|dot r1 r2| - norm r1 * norm r2)]
  obtain ⟨hl, hr⟩ := abs_le.mp habs
  rw [cos_dtheta, min_eq_right (by rw [div_le_one hpos]; exact hr),
    max_eq_right (by rw [le_div_iff₀ hpos]; linarith)]

/-- The sign adjustment does not change the square of the sine. -/
theorem sin_dtheta_sq (r1 r2 : Vector3) (p : Bool) :
    sin_dtheta r1 r2 p ^ 2 = (norm (cross r1 r2) / (norm r1 * norm r2)) ^ 2 := by
  simp only [sin_dtheta]
  cases p <;> split_ifs <;> ring

/-- With nonzero norms and non-degenerate cosine,
`A² = (1 + cosΔθ)·|r1||r2|`. -/
theorem A_param_sq (r1 r2 : Vector3) (p : Bool) (h1 : norm r1 ≠ 0) (h2 : norm r2 ≠ 0)
    (hc : cos_dtheta r1 r2 ≠ 1) :
    A_param r1 r2 p ^ 2 = (1 + cos_dtheta r1 r2) * (norm r1 * norm r2) := by
  have hn1 : 0 < norm r1 := (norm_nonneg' r1).lt_of_ne (Ne.symm h1)
  have hn2 : 0 < norm r2 := (norm_nonneg' r2).lt_of_ne (Ne.symm h2)
  have hprod : 0 < norm r1 * norm r2 := mul_pos hn1 hn2
  have hclt : cos_dtheta r1 r2 < 1 := lt_of_le_of_ne (cos_dtheta_mem r1 r2).2 hc
  have h1c : 0 < 1 - cos_dtheta r1 r2 := by linarith
  have hsin2 : sin_dtheta r1 r2 p ^ 2 = 1 - cos_dtheta r1 r2 ^ 2 := by
    rw [sin_dtheta_sq, cos_dtheta_eq r1 r2 h1 h2, div_pow, div_pow,
      sq (norm (cross r1 r2)), cross_norm_sq]
    field_simp
    ring
  rw [A_param, mul_pow, Real.sq_sqrt (div_nonneg hprod.le h1c.le), hsin2]
  field_simp
  ring

/-- For a non-degenerate geometry (`A ≠ 0`), `√2·|A| < |r1| + |r2|`. -/
theorem A_param_bound (r1 r2 : Vector3) (p : Bool) (h1 : norm r1 ≠ 0) (h2 : norm r2 ≠ 0)
    (hA : A_param r1 r2 p ≠ 0) :
    Real.sqrt 2 * |A_param r1 r2 p| < norm r1 + norm r2 := by
  have hn1 : 0 < norm r1 := (norm_nonneg' r1).lt_of_ne (Ne.symm h1)
  have hn2 : 0 < norm r2 := (norm_nonneg' r2).lt_of_ne (Ne.symm h2)
  have hprod : 0 < norm r1 * norm r2 := mul_pos hn1 hn2
  have hc1 : cos_dtheta r1 r2 ≠ 1 := by
    intro h
    apply hA
    rw [A_param, h]
    simp
  have hsq := A_param_sq r1 r2 p h1 h2 hc1
  have hclt : cos_dtheta r1 r2 < 1 := lt_of_le_of_ne (cos_dtheta_mem r1 r2).2 hc1
  have h1c : 0 < 1 - cos_dtheta r1 r2 := by linarith
  have h2A : 2 * A_param r1 r2 p ^ 2 < (norm r1 + norm r2) ^ 2 := by
    nlinarith [mul_pos h1c hprod, sq_nonneg (norm r1 - norm r2)]
  have hL : (Real.sqrt 2 * |A_param r1 r2 p|) ^ 2 = 2 * A_param r1 r2 p ^ 2 := by
    rw [mul_pow, Real.sq_sqrt (by norm_num : (0:ℝ) ≤ 2), sq_abs]
  exact lt_of_pow_lt_pow_left₀ 2 (add_nonneg hn1.le hn2.le) (by rw [hL]; exact h2A)

/-- Bounds on the series branch for `0 ≤ z` below the threshold:
`C > 0`, `1 - zS ≥ 0`, and `(1 - zS)² ≤ 2C`. -/
theorem series_bound_pos (z : ℝ) (h0 : 0 ≤ z) (h1 : z < 1e-6) :
    0 < stumpff_C z ∧ 0 ≤ 1 - z * stumpff_S z ∧
      (1 - z * stumpff_S z) ^ 2 ≤ 2 * stumpff_C z := by
  have habs : |z| < 1e-6 := by rw [abs_of_nonneg h0]; exact h1
  rw [stumpff_C, if_pos habs, stumpff_S, if_pos habs]
  have hpow : ∀ k : ℕ, z ^ (k + 1) ≤ 1e-6 * z ^ k := by
    intro k
    calc z ^ (k + 1) = z * z ^ k := by ring
    _ ≤ 1e-6 * z ^ k := mul_le_mul_of_nonneg_right h1.le (pow_nonneg h0 k)
  refine ⟨by nlinarith [hpow 1, hpow 2, pow_nonneg h0 2, pow_nonneg h0 3],
    by nlinarith [hpow 1, hpow 2, hpow 3, pow_nonneg h0 2, pow_nonneg h0 3, pow_nonneg h0 4],
    by nlinarith [hpow 1, hpow 2, hpow 3, hpow 4, hpow 5, hpow 6, hpow 7,
      pow_nonneg h0 2, pow_nonneg h0 3, pow_nonneg h0 4, pow_nonneg h0 5,
      pow_nonneg h0 6, pow_nonneg h0 7, pow_nonneg h0 8]⟩

/-- Bounds on the series branch for `z ≤ 0` above `-1e-6`:
`C > 0`, `1 - zS ≥ 0`, and `(1 - zS)² ≤ (2 + 10|z|)·C`. -/
theorem series_bound_neg (z : ℝ) (h0 : z ≤ 0) (h1 : -1e-6 < z) :
    0 < stumpff_C z ∧ 0 ≤ 1 - z * stumpff_S z ∧
      (1 - z * stumpff_S z) ^ 2 ≤ (2 + 10 * (-z)) * stumpff_C z := by
  have habs : |z| < 1e-6 := by rw [abs_of_nonpos h0]; linarith
  rw [stumpff_C, if_pos habs, stumpff_S, if_pos habs]
  have ht0 : 0 ≤ -z := by linarith
  have ht1 : -z < 1e-6 := by linarith
  have hpow : ∀ k : ℕ, (-z) ^ (k + 1) ≤ 1e-6 * (-z) ^ k := by
    intro k
    calc (-z) ^ (k + 1) = (-z) * (-z) ^ k := by ring
    _ ≤ 1e-6 * (-z) ^ k := mul_le_mul_of_nonneg_right ht1.le (pow_nonneg ht0 k)
  refine ⟨by nlinarith [hpow 1, hpow 2, pow_nonneg ht0 2, pow_nonneg ht0 3],
    by nlinarith [hpow 1, hpow 2, hpow 3, pow_nonneg ht0 2, pow_nonneg ht0 3,
      pow_nonneg ht0 4],
    by nlinarith [hpow 1, hpow 2, hpow 3, hpow 4, hpow 5, hpow 6, hpow 7,
      pow_nonneg ht0 2, pow_nonneg ht0 3, pow_nonneg ht0 4, pow_nonneg ht0 5,
      pow_nonneg ht0 6, pow_nonneg ht0 7, pow_nonneg ht0 8]⟩

/-- Lower bound for the `y`-term: if `1 - zS ≤ B·√C` then
`A(zS-1)/√C ≥ -(|A|·B)`. -/
theorem term_lower (A C S z B : ℝ) (hC : 0 < C) (hX : 0 ≤ 1 - z * S)
    (hbound : 1 - z * S ≤ B * Real.sqrt C) :
    -(|A| * B) ≤ A * (z * S - 1) / Real.sqrt C := by
  have hsC : 0 < Real.sqrt C := Real.sqrt_pos.mpr hC
  rw [le_div_iff₀ hsC]
  have ha1 : A * (1 - z * S) ≤ |A| * (1 - z * S) :=
    mul_le_mul_of_nonneg_right (le_abs_self A) hX
  have ha2 : |A| * (1 - z * S) ≤ |A| * (B * Real.sqrt C) :=
    mul_le_mul_of_nonneg_left hbound (abs_nonneg A)
  nlinarith

/-- Key positivity fact: for geometric data with
`√2·|A| ≤ r1n + r2n`, the universal-variable `y` is nonnegative at every
nonnegative `z`.  Hence the `y < 0` repair loop can only ever be entered
at a negative iterate. -/
theorem y_nonneg_of_nonneg (r1n r2n A : ℝ)
    (hA : Real.sqrt 2 * |A| ≤ r1n + r2n) (z : ℝ) (hz : 0 ≤ z) :
    0 ≤ y_of r1n r2n A z := by
  have hsum : 0 ≤ r1n + r2n :=
    le_trans (mul_nonneg (Real.sqrt_nonneg 2) (abs_nonneg A)) hA
  rcases lt_or_le z 1e-6 with hsm | hbig
  · obtain ⟨hC, hX, hsq⟩ := series_bound_pos z hz hsm
    have hbound : 1 - z * stumpff_S z ≤ Real.sqrt 2 * Real.sqrt (stumpff_C z) := by
      rw [← Real.sqrt_mul (by norm_num : (0:ℝ) ≤ 2)]
      exact (Real.le_sqrt hX (by positivity)).mpr (by linarith)
    have ht := term_lower A (stumpff_C z) (stumpff_S z) z (Real.sqrt 2) hC hX hbound
    rw [y_of]
    have : |A| * Real.sqrt 2 = Real.sqrt 2 * |A| := mul_comm _ _
    rw [this] at ht
    linarith
  · have hzpos : (0:ℝ) < z := lt_of_lt_of_le (by norm_num) hbig
    have habs : ¬ |z| < 1e-6 := by
      rw [abs_of_pos hzpos]
      push_neg
      exact hbig
    have hC : stumpff_C z = (1 - Real.cos (Real.sqrt z)) / z := by
      rw [stumpff_C, if_neg habs, if_pos hzpos]
    have hS : stumpff_S z = (Real.sqrt z - Real.sin (Real.sqrt z)) / z ^ (1.5 : ℝ) := by
      rw [stumpff_S, if_neg habs, if_pos hzpos]
    set s := Real.sqrt z with hs_def
    have hspos : 0 < s := Real.sqrt_pos.mpr hzpos
    have hzs : z = s ^ 2 := (Real.sq_sqrt hzpos.le).symm
    by_cases hcos : Real.cos s = 1
    · have hC0 : stumpff_C z = 0 := by
        rw [hC, hcos]
        simp
      rw [y_of, hC0, Real.sqrt_zero, div_zero, add_zero]
      exact hsum
    · have hclt : Real.cos s < 1 := lt_of_le_of_ne (Real.cos_le_one s) hcos
      have h1c : 0 < 1 - Real.cos s := by linarith
      have hrpow : z ^ (1.5 : ℝ) = s ^ 3 := by
        rw [hzs]
        exact rpow_threehalves_of_sq s hspos.le
      have hzS : z * stumpff_S z - 1 = -(Real.sin s / s) := by
        rw [hS, hrpow]
        rw [show z = s ^ 2 from hzs]
        field_simp
        ring
      have hsqrtC : Real.sqrt (stumpff_C z) = Real.sqrt (1 - Real.cos s) / s := by
        rw [hC, Real.sqrt_div h1c.le, ← hs_def]
      have hs1c : 0 < Real.sqrt (1 - Real.cos s) := Real.sqrt_pos.mpr h1c
      have hterm : A * (z * stumpff_S z - 1) / Real.sqrt (stumpff_C z) =
          -(A * Real.sin s / Real.sqrt (1 - Real.cos s)) := by
        rw [hzS, hsqrtC]
        field_simp
        ring
      have hsin2 : Real.sin s ^ 2 = (1 - Real.cos s) * (1 + Real.cos s) := by
        have h := Real.sin_sq_add_cos_sq s
        nlinarith
      have hsin : |Real.sin s| = Real.sqrt (1 - Real.cos s) * Real.sqrt (1 + Real.cos s) := by
        rw [← Real.sqrt_sq_eq_abs, hsin2, Real.sqrt_mul h1c.le]
      have hb : A * Real.sin s / Real.sqrt (1 - Real.cos s) ≤ r1n + r2n := by
        rw [div_le_iff₀ hs1c]
        calc A * Real.sin s ≤ |A * Real.sin s| := le_abs_self _
        _ = |A| * |Real.sin s| := abs_mul _ _
        _ = |A| * (Real.sqrt (1 - Real.cos s) * Real.sqrt (1 + Real.cos s)) := by rw [hsin]
        _ ≤ |A| * (Real.sqrt (1 - Real.cos s) * Real.sqrt 2) := by
            refine mul_le_mul_of_nonneg_left
              (mul_le_mul_of_nonneg_left ?_ (Real.sqrt_nonneg _)) (abs_nonneg A)
            exact Real.sqrt_le_sqrt (by linarith [Real.cos_le_one s])
        _ = Real.sqrt 2 * |A| * Real.sqrt (1 - Real.cos s) := by ring
        _ ≤ (r1n + r2n) * Real.sqrt (1 - Real.cos s) :=
            mul_le_mul_of_nonneg_right hA hs1c.le
      rw [y_of, hterm]
      linarith

/-- For a negative entry point the bracket stays `(z0/2^k, 0)`. -/
theorem bisect_state_neg (z0 : ℝ) (hz : z0 < 0) (k : ℕ) :
    bisect_state z0 k = (z0 / 2 ^ k, 0) := by
  induction k with
  | zero =>
    rw [bisect_state, Function.iterate_zero, id_eq, if_pos hz]
    norm_num
  | succ k ih =>
    rw [bisect_state, Function.iterate_succ_apply', ← bisect_state, ih]
    have hm : (z0 / 2 ^ k + 0) / 2 < 0 := by
      apply div_neg_of_neg_of_pos _ (by norm_num)
      rw [add_zero]
      exact div_neg_of_neg_of_pos hz (by positivity)
    rw [bisect_step, if_pos hm]
    rw [Prod.mk.injEq]
    constructor
    · rw [add_zero, div_div, ← pow_succ]
    · rfl

/-- For a negative entry point the `k`-th midpoint is `z0/2^(k+1)`. -/
theorem bisect_mid_neg (z0 : ℝ) (hz : z0 < 0) (k : ℕ) :
    bisect_mid z0 k = z0 / 2 ^ (k + 1) := by
  rw [bisect_mid, bisect_state_neg z0 hz k, add_zero, div_div, ← pow_succ]

/-- Series-branch lower bound for `y` at slightly negative arguments. -/
theorem y_lower_neg_series (r1n r2n A m : ℝ) (h0 : m ≤ 0) (h1 : -1e-6 < m) :
    r1n + r2n - |A| * (Real.sqrt 2 + 10 * (-m)) ≤ y_of r1n r2n A m := by
  obtain ⟨hC, hX, hsq⟩ := series_bound_neg m h0 h1
  have ht0 : 0 ≤ -m := by linarith
  have hsqrt2 : (1:ℝ) ≤ Real.sqrt 2 := by
    rw [show (1:ℝ) = Real.sqrt 1 from (Real.sqrt_one).symm]
    exact Real.sqrt_le_sqrt (by norm_num)
  have hBle : Real.sqrt (2 + 10 * (-m)) ≤ Real.sqrt 2 + 10 * (-m) := by
    have hle : 2 + 10 * (-m) ≤ (Real.sqrt 2 + 10 * (-m)) ^ 2 := by
      nlinarith [Real.sq_sqrt (show (0:ℝ) ≤ 2 by norm_num), Real.sqrt_nonneg 2]
    calc Real.sqrt (2 + 10 * (-m)) ≤ Real.sqrt ((Real.sqrt 2 + 10 * (-m)) ^ 2) :=
        Real.sqrt_le_sqrt hle
    _ = Real.sqrt 2 + 10 * (-m) := Real.sqrt_sq (by positivity)
  have hbound : 1 - m * stumpff_S m ≤ (Real.sqrt 2 + 10 * (-m)) * Real.sqrt (stumpff_C m) := by
    have h1' : 1 - m * stumpff_S m ≤ Real.sqrt ((2 + 10 * (-m)) * stumpff_C m) :=
      (Real.le_sqrt hX (by positivity)).mpr (by linarith)
    have h2' : Real.sqrt ((2 + 10 * (-m)) * stumpff_C m) =
        Real.sqrt (2 + 10 * (-m)) * Real.sqrt (stumpff_C m) :=
      Real.sqrt_mul (by linarith) _
    calc 1 - m * stumpff_S m ≤ Real.sqrt ((2 + 10 * (-m)) * stumpff_C m) := h1'
    _ = Real.sqrt (2 + 10 * (-m)) * Real.sqrt (stumpff_C m) := h2'
    _ ≤ (Real.sqrt 2 + 10 * (-m)) * Real.sqrt (stumpff_C m) :=
        mul_le_mul_of_nonneg_right hBle (Real.sqrt_nonneg _)
  have ht := term_lower A (stumpff_C m) (stumpff_S m) m (Real.sqrt 2 + 10 * (-m)) hC hX hbound
  rw [y_of]
  linarith

/-- If the geometry is non-degenerate, the inner repair loop entered at a
negative `z0` exits, at a midpoint between `z0` and `0`. -/
theorem bisect_exit_neg (r1n r2n A : ℝ) (hδ : Real.sqrt 2 * |A| < r1n + r2n)
    (z0 : ℝ) (hz0 : z0 < 0) :
    ∃ z2, bisect_exit r1n r2n A z0 = some z2 ∧ z0 ≤ z2 ∧ z2 ≤ 0 := by
  have hδpos : 0 < r1n + r2n - Real.sqrt 2 * |A| := by linarith
  set δ := r1n + r2n - Real.sqrt 2 * |A| with hδ_def
  have hu : (0:ℝ) < 10 * |A| + 1 := by positivity
  set ε := min 1e-7 (δ / (10 * |A| + 1)) with hε_def
  have hεpos : 0 < ε := lt_min (by norm_num) (div_pos hδpos hu)
  obtain ⟨n, hn⟩ := exists_nat_gt ((-z0) / ε)
  have h2pow : (n : ℝ) < 2 ^ (n + 1) := by
    have h1 : n < 2 ^ (n + 1) := lt_of_lt_of_le (Nat.lt_two_pow n) (Nat.pow_le_pow_right
      (by norm_num) (Nat.le_succ n))
    exact_mod_cast h1
  have hppos : (0:ℝ) < 2 ^ (n + 1) := by positivity
  have hmlt : -(z0 / 2 ^ (n + 1)) < ε := by
    rw [neg_div' ]
    rw [div_lt_iff₀ hppos]
    have hz0' : -z0 < ε * n := by
      rw [div_lt_iff₀ hεpos] at hn
      linarith [mul_comm ((n:ℝ)) ε]
    calc -z0 < ε * n := hz0'
    _ ≤ ε * 2 ^ (n + 1) := mul_le_mul_of_nonneg_left h2pow.le hεpos.le
  have hmid_le : ∀ K : ℕ, z0 / 2 ^ (K + 1) ≤ 0 := fun K =>
    div_nonpos_iff.mpr (Or.inr ⟨hz0.le, by positivity⟩)
  have hy_n : ¬ y_of r1n r2n A (bisect_mid z0 n) < 0 := by
    rw [bisect_mid_neg z0 hz0 n, not_lt]
    set m := z0 / 2 ^ (n + 1) with hm_def
    have hm0 : m ≤ 0 := hmid_le n
    have hm1 : -1e-6 < m := by
      have : -m < ε := hmlt
      have hε7 : ε ≤ 1e-7 := min_le_left _ _
      linarith
    have hyl := y_lower_neg_series r1n r2n A m hm0 hm1
    have hprod : 10 * |A| * (-m) < δ := by
      have hs1 : 10 * |A| * (-m) ≤ 10 * |A| * ε :=
        mul_le_mul_of_nonneg_left hmlt.le (by positivity)
      have hs2 : 10 * |A| * ε ≤ 10 * |A| * (δ / (10 * |A| + 1)) :=
        mul_le_mul_of_nonneg_left (min_le_right _ _) (by positivity)
      have hs3 : 10 * |A| * (δ / (10 * |A| + 1)) < δ := by
        rw [mul_div_assoc']
        rw [div_lt_iff₀ hu]
        nlinarith [abs_nonneg A]
      linarith
    nlinarith [hyl, hprod]
  have hex : ∃ k, ¬ y_of r1n r2n A (bisect_mid z0 k) < 0 := ⟨n, hy_n⟩
  refine ⟨bisect_mid z0 (Nat.find hex), ?_, ?_, ?_⟩
  · rw [bisect_exit, dif_pos hex]
  · rw [bisect_mid_neg z0 hz0]
    rw [le_div_iff₀ (by positivity : (0:ℝ) < 2 ^ (Nat.find hex + 1))]
    have h1 : (1:ℝ) ≤ 2 ^ (Nat.find hex + 1) := one_le_pow₀ (by norm_num)
    nlinarith [mul_le_mul_of_nonpos_left h1 hz0.le]
  · rw [bisect_mid_neg z0 hz0]
    exact hmid_le _

/-- The damped, magnitude-limited Newton step never exceeds `10`. -/
theorem delta_z_le (r1n r2n A mu tof z : ℝ) : |delta_z r1n r2n A mu tof z| ≤ 10 := by
  simp only [delta_z]
  split_ifs with h1 h2
  · norm_num
  · norm_num
  · linarith [not_lt.mp h1]

/-- The initial iterate has magnitude exactly `4π²`. -/
theorem z_init_abs (r1 r2 : Vector3) (p : Bool) : |z_init r1 r2 p| ≤ 4 * PI * PI := by
  have hp : (0:ℝ) ≤ 4 * PI * PI := by nlinarith [PI_pos]
  rw [z_init]
  split_ifs
  · rw [abs_neg, abs_of_nonneg hp]
  · rw [abs_of_nonneg hp]

/-- With a non-degenerate geometry the outer loop never hangs: the
repair loop is only ever entered at negative `z`, where it exits. -/
theorem loop_ne_hang (r1n r2n A mu tof : ℝ)
    (hδ : Real.sqrt 2 * |A| < r1n + r2n) :
    ∀ (n : ℕ) (z ylast Flast : ℝ), loop r1n r2n A mu tof n z ylast Flast ≠ LoopOut.hang := by
  intro n
  induction n with
  | zero =>
    intro z yl Fl
    rw [loop_zero]
    simp
  | succ n ih =>
    intro z yl Fl
    rw [loop_succ]
    by_cases hy : y_of r1n r2n A z < 0
    · rw [if_pos hy]
      have hzneg : z < 0 := by
        by_contra hge
        push_neg at hge
        exact absurd (y_nonneg_of_nonneg r1n r2n A hδ.le z hge) (not_le.mpr hy)
      obtain ⟨z2, hz2, -, -⟩ := bisect_exit_neg r1n r2n A hδ z hzneg
      rw [hz2]
      exact ih z2 _ _
    · rw [if_neg hy]
      split_ifs
      · simp
      · simp
      · exact ih _ _ _

/-- With a non-degenerate geometry, starting from `|z| ≤ 4π²`, the
`|z| > 1e6` blow-up guard never fires. -/
theorem loop_ne_blowup (r1n r2n A mu tof : ℝ)
    (hδ : Real.sqrt 2 * |A| < r1n + r2n) :
    ∀ (n : ℕ) (z ylast Flast : ℝ), |z| ≤ 4 * PI * PI →
      loop r1n r2n A mu tof n z ylast Flast ≠ LoopOut.blowup := by
  intro n
  induction n with
  | zero =>
    intro z yl Fl _
    rw [loop_zero]
    simp
  | succ n ih =>
    intro z yl Fl hz
    rw [loop_succ]
    by_cases hy : y_of r1n r2n A z < 0
    · rw [if_pos hy]
      have hzneg : z < 0 := by
        by_contra hge
        push_neg at hge
        exact absurd (y_nonneg_of_nonneg r1n r2n A hδ.le z hge) (not_le.mpr hy)
      obtain ⟨z2, hz2, hz2l, hz2r⟩ := bisect_exit_neg r1n r2n A hδ z hzneg
      rw [hz2]
      apply ih
      rw [abs_le]
      obtain ⟨hzl, -⟩ := abs_le.mp hz
      have hp : (0:ℝ) ≤ 4 * PI * PI := by nlinarith [PI_pos]
      exact ⟨by linarith, by linarith⟩
    · rw [if_neg hy]
      split_ifs with hF hbig
      · simp
      · exfalso
        have hd := delta_z_le r1n r2n A mu tof z
        have htri := abs_sub z (delta_z r1n r2n A mu tof z)
        simp only [PI] at hz
        have hpi2 := Real.pi_lt_d2
        have hpi0 := Real.pi_pos
        have : |z - delta_z r1n r2n A mu tof z| ≤ 1e6 := by nlinarith
        exact absurd hbig (not_lt.mpr this)
      · apply ih
        have hp : (0:ℝ) ≤ 4 * PI * PI := by nlinarith [PI_pos]
        rw [abs_le]
        constructor
        · exact le_max_left _ _
        · exact max_le (by linarith) (min_le_right _ _)

/-- C6: `solve` always terminates — in particular the inner
`while (y < 0)` repair loop always exits, so the only way every call
ends is by returning a velocity pair or throwing one of the errors. -/
theorem solve_terminates (mu : ℝ) (r1 r2 : Vector3) (tof : ℝ) (p : Bool) :
    solve mu r1 r2 tof p ≠ Outcome.innerHang := by
  rw [solve]
  split_ifs with h1 h2
  · simp
  · simp
  · push_neg at h1
    obtain ⟨hn1, hn2⟩ := h1
    have hδ := A_param_bound r1 r2 p hn1 hn2 h2
    have hnh := loop_ne_hang (norm r1) (norm r2) (A_param r1 r2 p) mu tof hδ
      1000 (z_init r1 r2 p) 0 0
    cases hl : loop (norm r1) (norm r2) (A_param r1 r2 p) mu tof
        1000 (z_init r1 r2 p) 0 0 with
    | converged zz yy => simp
    | noConv zz yy FF => simp
    | blowup => simp
    | hang => exact absurd hl hnh

/-- C10: each Newton step is magnitude-limited to `10`, the repair
step keeps `z` inside its bracket, the counted iterates are clamped to
`[-4π², 4π²]` — so `|z|` never approaches the `1e6` guard and `solve`
never raises the numerical-divergence error, for any input. -/
theorem no_numerical_divergence :
    (∀ r1n r2n A mu tof z, |delta_z r1n r2n A mu tof z| ≤ 10) ∧
    ∀ (mu : ℝ) (r1 r2 : Vector3) (tof : ℝ) (p : Bool),
      solve mu r1 r2 tof p ≠ Outcome.numericalDivergence := by
  refine ⟨delta_z_le, ?_⟩
  intro mu r1 r2 tof p
  rw [solve]
  split_ifs with h1 h2
  · simp
  · simp
  · push_neg at h1
    obtain ⟨hn1, hn2⟩ := h1
    have hδ := A_param_bound r1 r2 p hn1 hn2 h2
    have hnb := loop_ne_blowup (norm r1) (norm r2) (A_param r1 r2 p) mu tof hδ
      1000 (z_init r1 r2 p) 0 0 (z_init_abs r1 r2 p)
    cases hl : loop (norm r1) (norm r2) (A_param r1 r2 p) mu tof
        1000 (z_init r1 r2 p) 0 0 with
    | converged zz yy => simp
    | noConv zz yy FF => simp
    | blowup => exact absurd hl hnb
    | hang => simp

/-- Criterion for `y < 0` through the series expressions: if
`(A(1-zS))² > 4C` with positive factors then `y = 2 + A(zS-1)/√C < 0`. -/
theorem y_neg_criterion (A C S z : ℝ) (hC : 0 < C) (hX : 0 < A * (1 - z * S))
    (h4 : 4 * C < (A * (1 - z * S)) ^ 2) :
    1 + 1 + A * (z * S - 1) / Real.sqrt C < 0 := by
  have hsC : 0 < Real.sqrt C := Real.sqrt_pos.mpr hC
  have h2 : Real.sqrt C < A * (1 - z * S) / 2 := by
    rw [Real.sqrt_lt' (by linarith)]
    nlinarith
  have h3 : A * (z * S - 1) / Real.sqrt C < -2 := by
    rw [div_lt_iff₀ hsC]
    nlinarith
  linarith

/-- Criterion for `y ≥ 0`: if `(A(1-zS))² ≤ 4C` then `y = 2 + A(zS-1)/√C ≥ 0`. -/
theorem y_nonneg_criterion (A C S z : ℝ) (hC : 0 < C) (hX : 0 ≤ A * (1 - z * S))
    (h4 : (A * (1 - z * S)) ^ 2 ≤ 4 * C) :
    0 ≤ 1 + 1 + A * (z * S - 1) / Real.sqrt C := by
  have hsC : 0 < Real.sqrt C := Real.sqrt_pos.mpr hC
  have h2 : A * (1 - z * S) / 2 ≤ Real.sqrt C := by
    rw [Real.le_sqrt (by linarith) hC.le]
    nlinarith
  have h3 : -2 ≤ A * (z * S - 1) / Real.sqrt C := by
    rw [le_div_iff₀ hsC]
    nlinarith
  linarith

/-- The concrete series threshold check at `cex_z0`. -/
theorem cex_abs0 : |cex_z0| < 1e-6 := by
  rw [cex_z0, abs_of_neg (by norm_num)]
  norm_num

/-- The concrete series threshold check at `cex_z0 / 2`. -/
theorem cex_abs1 : |cex_z0 / 2| < 1e-6 := by
  rw [cex_z0, abs_of_neg (by norm_num)]
  norm_num

/-- At `cex_z0` the concrete transfer is non-physical: `y < 0`. -/
theorem cex_y0_neg : y_of 1 1 cex_A cex_z0 < 0 := by
  have hC : stumpff_C cex_z0 =
      1 / 2 - cex_z0 / 24 + cex_z0 * cex_z0 / 720 - cex_z0 * cex_z0 * cex_z0 / 40320 := by
    rw [stumpff_C, if_pos cex_abs0]
  have hS : stumpff_S cex_z0 =
      1 / 6 - cex_z0 / 120 + cex_z0 * cex_z0 / 5040 - cex_z0 * cex_z0 * cex_z0 / 362880 := by
    rw [stumpff_S, if_pos cex_abs0]
  rw [y_of]
  refine y_neg_criterion cex_A (stumpff_C cex_z0) (stumpff_S cex_z0) cex_z0 ?_ ?_ ?_
  · rw [hC, cex_z0]; norm_num
  · rw [hS, cex_A, cex_z0]; norm_num
  · rw [hC, hS, cex_A, cex_z0]; norm_num

/-- At the repaired estimate `cex_z0 / 2`, `y` is nonnegative again. -/
theorem cex_y1_nonneg : ¬ y_of 1 1 cex_A (cex_z0 / 2) < 0 := by
  have hC : stumpff_C (cex_z0 / 2) =
      1 / 2 - cex_z0 / 2 / 24 + cex_z0 / 2 * (cex_z0 / 2) / 720 -
        cex_z0 / 2 * (cex_z0 / 2) * (cex_z0 / 2) / 40320 := by
    rw [stumpff_C, if_pos cex_abs1]
  have hS : stumpff_S (cex_z0 / 2) =
      1 / 6 - cex_z0 / 2 / 120 + cex_z0 / 2 * (cex_z0 / 2) / 5040 -
        cex_z0 / 2 * (cex_z0 / 2) * (cex_z0 / 2) / 362880 := by
    rw [stumpff_S, if_pos cex_abs1]
  rw [y_of, not_lt]
  refine y_nonneg_criterion cex_A (stumpff_C (cex_z0 / 2)) (stumpff_S (cex_z0 / 2))
    (cex_z0 / 2) ?_ ?_ ?_
  · rw [hC, cex_z0]; norm_num
  · rw [hS, cex_A, cex_z0]; norm_num
  · rw [hC, hS, cex_A, cex_z0]; norm_num

/-- The first midpoint the inner repair loop tries from `cex_z0`. -/
theorem cex_mid0 : bisect_mid cex_z0 0 = cex_z0 / 2 := by
  rw [bisect_mid, bisect_state]
  simp only [Function.iterate_zero, id_eq]
  rw [if_pos (show cex_z0 < 0 by rw [cex_z0]; norm_num)]
  ring

/-- If the very first midpoint repairs `y`, the inner loop exits there. -/
theorem bisect_exit_first (r1n r2n A z0 : ℝ)
    (h0 : ¬ y_of r1n r2n A (bisect_mid z0 0) < 0) :
    bisect_exit r1n r2n A z0 = some (bisect_mid z0 0) := by
  have hex : ∃ k, ¬ y_of r1n r2n A (bisect_mid z0 k) < 0 := ⟨0, h0⟩
  rw [bisect_exit, dif_pos hex]
  have hfind : Nat.find hex = 0 := (Nat.find_eq_zero hex).mpr h0
  rw [hfind]

/-- The concrete repair loop exits immediately at `cex_z0 / 2`. -/
theorem cex_bisect : bisect_exit 1 1 cex_A cex_z0 = some (cex_z0 / 2) := by
  rw [bisect_exit_first 1 1 cex_A cex_z0 (by rw [cex_mid0]; exact cex_y1_nonneg), cex_mid0]

/-- The residual vanishes exactly at the repaired estimate. -/
theorem cex_F1 : F_of 1 1 cex_A 1 cex_tof (cex_z0 / 2) = 0 := by
  rw [F_of, cex_tof, Real.sqrt_one]
  ring

/-- C5 counterexample: a repair pass is *not* free.  At the concrete
repair-triggering state `cex_z0`, running the loop with one remaining
iteration exhausts the budget inside the repair pass (non-convergence),
whereas one remaining iteration started at the repaired estimate
converges — so the repair pass consumed the iteration the claim says it
does not. -/
theorem repair_budget_cex :
    y_of 1 1 cex_A cex_z0 < 0 ∧
    bisect_exit 1 1 cex_A cex_z0 = some (cex_z0 / 2) ∧
    loop 1 1 cex_A 1 cex_tof 1 cex_z0 0 0 ≠
      loop 1 1 cex_A 1 cex_tof 1 (cex_z0 / 2) (y_of 1 1 cex_A (cex_z0 / 2)) 0 := by
  refine ⟨cex_y0_neg, cex_bisect, ?_⟩
  have hL : loop 1 1 cex_A 1 cex_tof 1 cex_z0 0 0 =
      LoopOut.noConv (cex_z0 / 2) (y_of 1 1 cex_A (cex_z0 / 2)) 0 := by
    rw [show (1 : ℕ) = 0 + 1 from rfl, loop_succ, if_pos cex_y0_neg, cex_bisect]
    rfl
  have hR : loop 1 1 cex_A 1 cex_tof 1 (cex_z0 / 2) (y_of 1 1 cex_A (cex_z0 / 2)) 0 =
      LoopOut.converged (cex_z0 / 2) (y_of 1 1 cex_A (cex_z0 / 2)) := by
    rw [show (1 : ℕ) = 0 + 1 from rfl, loop_succ, if_neg cex_y1_nonneg, cex_F1,
      if_pos (by norm_num)]
  rw [hL, hR]
  simp

/-- C5 (amended): a pass through the `y < 0` bisection repair
consumes one unit of the shared 1000-iteration budget: after repairing
`z` to `z2`, the loop continues with one fewer remaining iteration. -/
theorem repair_pass_consumes_budget (r1n r2n A mu tof : ℝ) (n : ℕ)
    (z ylast Flast z2 : ℝ) (hy : y_of r1n r2n A z < 0)
    (hb : bisect_exit r1n r2n A z = some z2) :
    loop r1n r2n A mu tof (n + 1) z ylast Flast =
      loop r1n r2n A mu tof n z2 (y_of r1n r2n A z2) Flast := by
  rw [loop_succ, if_pos hy, hb]

/-- Witness for the amended C5 at the concrete repair pass. -/
theorem repair_pass_consumes_budget_witness :
    loop 1 1 cex_A 1 cex_tof (0 + 1) cex_z0 0 0 =
      loop 1 1 cex_A 1 cex_tof 0 (cex_z0 / 2) (y_of 1 1 cex_A (cex_z0 / 2)) 0 :=
  repair_pass_consumes_budget 1 1 cex_A 1 cex_tof 0 cex_z0 0 0 (cex_z0 / 2)
    cex_y0_neg cex_bisect

/-- C9: `solve` is a function of its five inputs only — equal inputs
give equal outcomes. -/
theorem solve_deterministic (mu mu' : ℝ) (r1 r2 r1' r2' : Vector3) (tof tof' : ℝ)
    (p p' : Bool) (h1 : mu = mu') (h2 : r1 = r1') (h3 : r2 = r2') (h4 : tof = tof')
    (h5 : p = p') :
    solve mu r1 r2 tof p = solve mu' r1' r2' tof' p' := by
  subst h1; subst h2; subst h3; subst h4; subst h5; rfl

/-- Witness for C9 at a concrete input. -/
theorem solve_deterministic_witness :
    solve 1 ⟨1, 0, 0⟩ ⟨0, 1, 0⟩ 1 true = solve 1 ⟨1, 0, 0⟩ ⟨0, 1, 0⟩ 1 true :=
  solve_deterministic 1 1 ⟨1, 0, 0⟩ ⟨0, 1, 0⟩ ⟨1, 0, 0⟩ ⟨0, 1, 0⟩ 1 1 true true
    rfl rfl rfl rfl rfl

end Lambert
